import Mathlib

/-!
Shallow embedding of `xcube/core/chunkstore.py` (class `ChunkStore`), the
virtual Zarr chunk store of the xcube repository, together with proofs of the
specification claims about it.

Modelling conventions:
* store keys are `List Char` (Python `str`);
* binary payloads are `List Nat` (byte values, Python `bytes`);
* the virtual file system `self._vfs` (a Python `dict`) is an insertion-ordered
  association list with Python-dict assignment semantics (`dictSet`);
* JSON metadata documents are flat objects (`JDoc`): every value is a scalar or
  an array of scalars, which covers every document this module builds; they are
  serialized by `dumpDoc`, an executable model of `json.dumps(d, indent=2)`,
  and stored as UTF-8 bytes exactly as `_dict_to_bytes` does;
* a chunk resolver (`get_chunk` callback) is referenced by a numeric handle;
  an environment `Env` maps handles to actual functions
  `Store → name → index → bytes`, mirroring the callback signature
  `get_chunk(chunk_store, var_name, chunk_indexes)`;
* numpy scalars are `PyNum` (Python `int`, or a float that is either NaN or
  integer-valued, which covers all values this module manipulates); integer
  dtype buffers use little-endian two's-complement byte layout, float buffers
  use the IEEE-754 layout (`numpy` on a little-endian host);
* `np.full` with an out-of-range integer fill wraps modulo `2^bits`
  (numpy behaviour of the era of this code; current numpy raises instead,
  which is noted where relevant).
-/

namespace ChunkStore

/-! ### Decimal rendering of chunk indexes (`str(i)` and `'.'.join(...)`) -/

/-- One decimal digit character, `str(d)` for `0 ≤ d ≤ 9`. -/
def digitChar (d : Nat) : Char :=
  if d = 0 then '0' else if d = 1 then '1' else if d = 2 then '2'
  else if d = 3 then '3' else if d = 4 then '4' else if d = 5 then '5'
  else if d = 6 then '6' else if d = 7 then '7' else if d = 8 then '8' else '9'

/-- Fuel-indexed decimal rendering (structural, so that it evaluates in the
kernel). `natDigitsAux fuel n` is the decimal rendering of `n` provided
`n < fuel`. -/
def natDigitsAux : Nat → Nat → List Char
  | 0, _ => []
  | fuel + 1, n =>
    if n < 10 then [digitChar n]
    else natDigitsAux fuel (n / 10) ++ [digitChar (n % 10)]

/-- Decimal rendering of a natural number, Python `str(n)`. -/
def natDigits (n : Nat) : List Char := natDigitsAux (n + 1) n

/-- Python `'.'.join(map(str, index))`. -/
def render : List Nat → List Char
  | [] => []
  | [n] => natDigits n
  | n :: m :: rest => natDigits n ++ '.' :: render (m :: rest)

/-- Cartesian product `itertools.product(*map(range, nums))`, first coordinate
slowest, exactly in the iteration order of `itertools.product`. -/
def cartesian : List Nat → List (List Nat)
  | [] => [[]]
  | n :: rest => (List.range n).flatMap fun i => (cartesian rest).map fun t => i :: t

/-! ### JSON documents and `json.dumps(d, indent=2)` -/

/-- Integer-valued-or-NaN Python float (all floats this module manipulates). -/
inductive PyFloat where
  | fnan
  | fint (z : Int)
deriving DecidableEq

/-- A JSON scalar. -/
inductive JLeaf where
  | jnull
  | jbool (b : Bool)
  | jint (z : Int)
  | jfloat (f : PyFloat)
  | jstr (s : List Char)
deriving DecidableEq

/-- A JSON value inside one of this module's metadata documents: a scalar or an
array of scalars (the documents built by `chunkstore.py` are flat). -/
inductive JVal where
  | leaf (l : JLeaf)
  | jarr (items : List JLeaf)
deriving DecidableEq

/-- A JSON object document: ordered fields, as a Python `dict` literal. -/
abbrev JDoc := List (List Char × JVal)

def obrace : Char := Char.ofNat 123

def cbrace : Char := Char.ofNat 125

def spaces (n : Nat) : List Char := List.replicate n ' '

def hexDigit (n : Nat) : Char :=
  if n < 10 then digitChar n
  else if n = 10 then 'a' else if n = 11 then 'b' else if n = 12 then 'c'
  else if n = 13 then 'd' else if n = 14 then 'e' else 'f'

/-- JSON `\uXXXX` escape for a code unit. -/
def uEscape (n : Nat) : List Char :=
  ['\\', 'u', hexDigit (n / 4096 % 16), hexDigit (n / 256 % 16),
   hexDigit (n / 16 % 16), hexDigit (n % 16)]

/-- Escape one character as Python's `json` encoder does (`ensure_ascii=True`). -/
def escapeChar (c : Char) : List Char :=
  if c = '"' then ['\\', '"']
  else if c = '\\' then ['\\', '\\']
  else if c = Char.ofNat 10 then ['\\', 'n']
  else if c = Char.ofNat 13 then ['\\', 'r']
  else if c = Char.ofNat 9 then ['\\', 't']
  else if c = Char.ofNat 8 then ['\\', 'b']
  else if c = Char.ofNat 12 then ['\\', 'f']
  else if c.toNat < 32 then uEscape c.toNat
  else if c.toNat < 127 then [c]
  else if c.toNat < 65536 then uEscape c.toNat
  else uEscape (55296 + (c.toNat - 65536) / 1024) ++ uEscape (56320 + (c.toNat - 65536) % 1024)

def escape (s : List Char) : List Char := (s.map escapeChar).flatten

/-- Python `repr` of an `int`. -/
def intRepr (z : Int) : List Char :=
  if z < 0 then '-' :: natDigits z.natAbs else natDigits z.natAbs

/-- Serialize a JSON scalar as Python's `json` encoder does (`NaN` for a float
NaN, `d.0` for an integer-valued float). -/
def dumpLeaf : JLeaf → List Char
  | .jnull => "null".data
  | .jbool true => "true".data
  | .jbool false => "false".data
  | .jint z => intRepr z
  | .jfloat .fnan => "NaN".data
  | .jfloat (.fint z) => intRepr z ++ ".0".data
  | .jstr s => '"' :: escape s ++ ['"']

/-- Array items under `indent=2`: each on its own line at indent `ind`,
comma-separated. -/
def dumpItemsA (ind : Nat) : List JLeaf → List Char
  | [] => []
  | [x] => '\n' :: spaces ind ++ dumpLeaf x
  | x :: y :: rest => '\n' :: spaces ind ++ dumpLeaf x ++ ',' :: dumpItemsA ind (y :: rest)

/-- Serialize a JSON value at indent `ind` under `indent=2`. -/
def dumpVal (ind : Nat) : JVal → List Char
  | .leaf l => dumpLeaf l
  | .jarr [] => "[]".data
  | .jarr (x :: xs) =>
    '[' :: dumpItemsA (ind + 2) (x :: xs) ++ '\n' :: spaces ind ++ [']']

/-- Object fields under `indent=2`. -/
def dumpFields (ind : Nat) : JDoc → List Char
  | [] => []
  | [(k, v)] => '\n' :: spaces ind ++ '"' :: escape k ++ '"' :: ':' :: ' ' :: dumpVal ind v
  | (k, v) :: f :: rest =>
    '\n' :: spaces ind ++ '"' :: escape k ++ '"' :: ':' :: ' ' :: dumpVal ind v
      ++ ',' :: dumpFields ind (f :: rest)

/-- Model of `json.dumps(d, indent=2)` for a flat object document. -/
def dumpDoc : JDoc → List Char
  | [] => [obrace, cbrace]
  | f :: rest => obrace :: dumpFields 2 (f :: rest) ++ '\n' :: [cbrace]

/-- UTF-8 encoding of one character. -/
def utf8Char (c : Char) : List Nat :=
  let n := c.toNat
  if n < 128 then [n]
  else if n < 2048 then [192 + n / 64, 128 + n % 64]
  else if n < 65536 then [224 + n / 4096, 128 + n / 64 % 64, 128 + n % 64]
  else [240 + n / 262144, 128 + n / 4096 % 64, 128 + n / 64 % 64, 128 + n % 64]

/-- UTF-8 encoding of a string, `bytes(s, encoding='utf-8')`. -/
def utf8 (s : List Char) : List Nat := (s.map utf8Char).flatten

/-- Model of `_dict_to_bytes`: `bytes(json.dumps(d, indent=2), 'utf-8')`. -/
def dictToBytes (d : JDoc) : List Nat := utf8 (dumpDoc d)

/-! ### Numpy dtypes and scalar byte encodings -/

/-- The numpy dtypes this module is used with. -/
inductive Dtype where
  | int8 | int16 | int32 | int64
  | uint8 | uint16 | uint32 | uint64
  | float32 | float64
deriving DecidableEq

/-- Model of `np.issubdtype(dtype, np.integer)`. -/
def Dtype.isInteger : Dtype → Bool
  | .int8 | .int16 | .int32 | .int64 | .uint8 | .uint16 | .uint32 | .uint64 => true
  | .float32 | .float64 => false

/-- Model of `np.issubdtype(dtype, np.inexact)`. -/
def Dtype.isInexact : Dtype → Bool
  | .float32 | .float64 => true
  | _ => false

/-- Bytes per element. -/
def Dtype.itemsize : Dtype → Nat
  | .int8 | .uint8 => 1
  | .int16 | .uint16 => 2
  | .int32 | .uint32 | .float32 => 4
  | .int64 | .uint64 | .float64 => 8

/-- The dtype name string callers pass (`'uint8'`, ...). -/
def Dtype.name : Dtype → List Char
  | .int8 => "int8".data
  | .int16 => "int16".data
  | .int32 => "int32".data
  | .int64 => "int64".data
  | .uint8 => "uint8".data
  | .uint16 => "uint16".data
  | .uint32 => "uint32".data
  | .uint64 => "uint64".data
  | .float32 => "float32".data
  | .float64 => "float64".data

/-- Model of `np.dtype(...).str` on a little-endian host (`array.dtype.str`). -/
def Dtype.typestr : Dtype → List Char
  | .int8 => "|i1".data
  | .uint8 => "|u1".data
  | .int16 => "<i2".data
  | .uint16 => "<u2".data
  | .int32 => "<i4".data
  | .uint32 => "<u4".data
  | .int64 => "<i8".data
  | .uint64 => "<u8".data
  | .float32 => "<f4".data
  | .float64 => "<f8".data

/-- Model of `np.iinfo(dtype).min` (integer dtypes). -/
def iinfoMin : Dtype → Int
  | .int8 => -128
  | .int16 => -32768
  | .int32 => -2147483648
  | .int64 => -9223372036854775808
  | _ => 0

/-- Model of `np.iinfo(dtype).max` (integer dtypes). -/
def iinfoMax : Dtype → Int
  | .int8 => 127
  | .int16 => 32767
  | .int32 => 2147483647
  | .int64 => 9223372036854775807
  | .uint8 => 255
  | .uint16 => 65535
  | .uint32 => 4294967295
  | .uint64 => 18446744073709551615
  | _ => 0

/-- A Python numeric value as used for fill values: an `int`, or a `float`
that is NaN or integer-valued. -/
inductive PyNum where
  | pint (z : Int)
  | pfloat (f : PyFloat)
deriving DecidableEq

/-- Python truthiness of a number (`if fill_value:`); NaN is truthy. -/
def PyNum.truthy : PyNum → Bool
  | .pint z => z != 0
  | .pfloat .fnan => true
  | .pfloat (.fint z) => z != 0

/-- Python comparison `v >= b`; every comparison with NaN is false. -/
def pyGe : PyNum → Int → Bool
  | .pint z, b => b ≤ z
  | .pfloat .fnan, _ => false
  | .pfloat (.fint z), b => b ≤ z

/-- Python comparison `v <= b`; every comparison with NaN is false. -/
def pyLe : PyNum → Int → Bool
  | .pint z, b => z ≤ b
  | .pfloat .fnan, _ => false
  | .pfloat (.fint z), b => z ≤ b

/-- A number as it is recorded in JSON metadata: `int(v)` for Python ints,
`float(v)` for Python floats (lines 173-177 of the source). -/
def jsonOfNum : PyNum → JLeaf
  | .pint z => .jint z
  | .pfloat f => .jfloat f

def jsonOfOpt : Option PyNum → JLeaf
  | none => .jnull
  | some v => jsonOfNum v

/-- Little-endian bytes of a `k`-byte machine word. -/
def leBytes (k : Nat) (v : Nat) : List Nat :=
  (List.range k).map fun i => v / 2 ^ (8 * i) % 256

/-- Two's-complement little-endian buffer bytes of an integer element;
out-of-range values wrap modulo `2^bits`. -/
def intBytes (d : Dtype) (z : Int) : List Nat :=
  leBytes d.itemsize ((z % (2 ^ (8 * d.itemsize) : Nat)).toNat)

/-- IEEE-754 bit pattern (as a natural number) of the integer `z` for a format
with `expBits` exponent bits and `mant` mantissa bits, round to nearest even,
overflow to infinity. -/
def ieeeEncode (expBits mant : Nat) (z : Int) : Nat :=
  if z = 0 then 0
  else
    let sgn : Nat := if z < 0 then 2 ^ (expBits + mant) else 0
    let n : Nat := z.natAbs
    let e : Nat := Nat.log2 n
    let num : Nat := n * 2 ^ mant
    let q : Nat := num / 2 ^ e
    let r : Nat := num % 2 ^ e
    let half : Nat := 2 ^ e / 2
    let q : Nat := if r > half ∨ (r = half ∧ q % 2 = 1) then q + 1 else q
    let e : Nat := if q = 2 ^ (mant + 1) then e + 1 else e
    let q : Nat := if q = 2 ^ (mant + 1) then 2 ^ mant else q
    let bias : Nat := 2 ^ (expBits - 1) - 1
    if e + bias ≥ 2 ^ expBits - 1 then sgn + (2 ^ expBits - 1) * 2 ^ mant
    else sgn + (e + bias) * 2 ^ mant + (q - 2 ^ mant)

/-- Buffer bytes of a float element (little-endian IEEE-754); NaN uses the
canonical quiet-NaN pattern numpy writes for `np.nan`. -/
def floatBytes (d : Dtype) (f : PyFloat) : List Nat :=
  match d, f with
  | .float32, .fnan => leBytes 4 2143289344
  | .float64, .fnan => leBytes 8 9221120237041090560
  | .float32, .fint z => leBytes 4 (ieeeEncode 8 23 z)
  | .float64, .fint z => leBytes 8 (ieeeEncode 11 52 z)
  | _, _ => []

/-- Buffer bytes of one element of `np.full(..., fill_value=v, dtype=d)`:
`none` models the `ValueError` numpy raises when converting float NaN to an
integer dtype. -/
def scalarBytes (d : Dtype) (v : PyNum) : Option (List Nat) :=
  if d.isInteger then
    match v with
    | .pint z => some (intBytes d z)
    | .pfloat (.fint z) => some (intBytes d z)
    | .pfloat .fnan => none
  else
    match v with
    | .pint z => some (floatBytes d (.fint z))
    | .pfloat f => some (floatBytes d f)

/-- Buffer bytes of one integer-valued element (used for `bytes(array)`). -/
def elemBytes (d : Dtype) (z : Int) : List Nat :=
  if d.isInteger then intBytes d z else floatBytes d (.fint z)

/-! ### The store -/

abbrev Key := List Char

/-- One element of the Python tuple `(name, index, get_chunk)` stored for a
lazy chunk (line 143 of the source); the resolver is referenced by handle. -/
inductive Item where
  | sname (n : Key)
  | sindex (i : List Nat)
  | sresolver (g : Nat)
deriving DecidableEq

/-- One value of the virtual file system `self._vfs`: either a `bytes` object
or the lazy-chunk tuple. -/
inductive Value where
  | bytes (data : List Nat)
  | tup (items : List Item)
deriving DecidableEq

/-- Python `len(value)`: byte count of a `bytes` object, element count of a
tuple. -/
def pyLen : Value → Nat
  | .bytes b => b.length
  | .tup items => items.length

/-- Lookup in an insertion-ordered Python dict. -/
def dictGet {α : Type} (d : List (Key × α)) (k : Key) : Option α :=
  match d with
  | [] => none
  | (k', v) :: rest => if k' = k then some v else dictGet rest k

/-- Assignment `d[k] = v` on an insertion-ordered Python dict: update in place
if the key exists, append otherwise. -/
def dictSet {α : Type} (d : List (Key × α)) (k : Key) (v : α) : List (Key × α) :=
  if d.any (fun p => p.1 = k) then d.map (fun p => if p.1 = k then (k, v) else p)
  else d ++ [(k, v)]

/-- The `ChunkStore` state: the constructor arguments plus the virtual file
system. `get_chunk` is the default resolver handle (`self._get_chunk`). -/
structure Store where
  dims : List Key
  shape : List Nat
  chunks : List Nat
  get_chunk : Option Nat
  vfs : List (Key × Value)

/-- A chunk resolver: `get_chunk(chunk_store, var_name, chunk_indexes)`. -/
abbrev GetChunk := Store → Key → List Nat → List Nat

/-- Resolver environment mapping handles to callbacks. -/
abbrev Env := Nat → GetChunk

/-- The constructor `ChunkStore.__init__`: records dims/shape/chunks and seeds
the vfs with the `.zgroup` and `.zattrs` documents. -/
def mkStore (dims : List Key) (shape chunks : List Nat) (attrs : Option JDoc)
    (get_chunk : Option Nat) : Store :=
  { dims := dims, shape := shape, chunks := chunks, get_chunk := get_chunk,
    vfs := [(".zgroup".data, .bytes (dictToBytes [("zarr_format".data, .leaf (.jint 2))])),
            (".zattrs".data, .bytes (dictToBytes (attrs.getD [])))] }

/-- `self._ndim = len(dims)`. -/
def Store.ndim (s : Store) : Nat := s.dims.length

/-- Shape as a JSON array of ints. -/
def jints (l : List Nat) : JVal := .jarr (l.map fun n => .jint (Int.ofNat n))

/-- Dimension names as a JSON array of strings. -/
def jstrs (l : List Key) : JVal := .jarr (l.map .jstr)

/-- A numpy array: shape, dtype, and the flat buffer in row-major (C) order,
which is how numpy lays out a freshly constructed array. Elements are
integer-valued. -/
structure NDArray where
  shape : List Nat
  dtype : Dtype
  data : List Int

/-- Model of `bytes(array)`: the raw row-major buffer. -/
def NDArray.tobytes (a : NDArray) : List Nat := (a.data.map (elemBytes a.dtype)).flatten

/-- A 2-D array built from its rows; the buffer is the rows concatenated in
order (row-major). -/
def NDArray.ofMatrix (d : Dtype) (rows : List (List Int)) : NDArray :=
  { shape := [rows.length, (rows.headD []).length], dtype := d, data := rows.flatten }

/-- `ChunkStore.add_array` (lines 93-109 of the source). -/
def add_array (s : Store) (name : Key) (array : NDArray) (attrs : JDoc) : Store :=
  let shape := array.shape
  let array_metadata : JDoc :=
    [("zarr_format".data, .leaf (.jint 2)),
     ("chunks".data, jints shape),
     ("shape".data, jints shape),
     ("dtype".data, .leaf (.jstr array.dtype.typestr)),
     ("fill_value".data, .leaf .jnull),
     ("compressor".data, .leaf .jnull),
     ("filters".data, .leaf .jnull),
     ("order".data, .leaf (.jstr "C".data))]
  let v1 := dictSet s.vfs name (.bytes [])
  let v2 := dictSet v1 (name ++ "/.zarray".data) (.bytes (dictToBytes array_metadata))
  let v3 := dictSet v2 (name ++ "/.zattrs".data) (.bytes (dictToBytes attrs))
  let v4 := dictSet v3 (name ++ '/' :: render (List.replicate shape.length 0)) (.bytes array.tobytes)
  { s with vfs := v4 }

/-- Python errors surfaced by the store. -/
inductive PyError where
  | keyError (k : Key)
  | typeError (msg : List Char)
  | valueError (msg : List Char)
deriving DecidableEq

/-- Model of `dict(_ARRAY_DIMENSIONS=self._dims, **(attrs or dict()))`:
`none` models the `TypeError` Python raises when `attrs` itself binds the
`_ARRAY_DIMENSIONS` keyword. -/
def mergeAttrs (dims : List Key) (attrs : Option JDoc) : Option JDoc :=
  let a := attrs.getD []
  if a.any (fun p => p.1 = "_ARRAY_DIMENSIONS".data) then none
  else some (("_ARRAY_DIMENSIONS".data, jstrs dims) :: a)

/-- The `array_metadata` dict literal of `add_lazy_array` (lines 125-132). -/
def lazyMeta (s : Store) (dtype : Key) (fill_value : Option PyNum)
    (compressor filters : JVal) (order : Key) : JDoc :=
  [("zarr_format".data, .leaf (.jint 2)),
   ("shape".data, jints s.shape),
   ("chunks".data, jints s.chunks),
   ("compressor".data, compressor),
   ("dtype".data, .leaf (.jstr dtype)),
   ("fill_value".data, .leaf (jsonOfOpt fill_value)),
   ("filters".data, filters),
   ("order".data, .leaf (.jstr order))]

/-- `ChunkStore.add_lazy_array` (lines 111-143 of the source). An error carries
the store as mutated up to the point the exception is raised. -/
def add_lazy_array (s : Store) (name : Key) (dtype : Key) (fill_value : Option PyNum)
    (compressor : JVal) (filters : JVal) (order : Key) (attrs : Option JDoc)
    (get_chunk : Option Nat) : Except (PyError × Store) Store :=
  match get_chunk.orElse (fun _ => s.get_chunk) with
  | none => .error (.valueError ("get_chunk must be given as there is no default".data), s)
  | some g =>
    let array_metadata : JDoc := lazyMeta s dtype fill_value compressor filters order
    let v1 := dictSet s.vfs name (.bytes [])
    let v2 := dictSet v1 (name ++ "/.zarray".data) (.bytes (dictToBytes array_metadata))
    match mergeAttrs s.dims attrs with
    | none =>
      .error (.typeError ("dict got multiple values for keyword argument".data),
              { s with vfs := v2 })
    | some za =>
      let v3 := dictSet v2 (name ++ "/.zattrs".data) (.bytes (dictToBytes za))
      let nums := List.zipWith (fun a b => a / b) s.shape s.chunks
      let vfin := (cartesian nums).foldl
        (fun d index =>
          dictSet d (name ++ '/' :: render index)
            (.tup [.sname name, .sindex index, .sresolver g])) v3
      .ok { s with vfs := vfin }

/-- Lines 154-165 of the source: the fill-value policy of `add_nan_array`.
Note the inner condition is literally
`not fill_value >= dtype_min and not fill_value <= dtype_max`. -/
def resolveFill (dtype : Dtype) (fill_value : Option PyNum) : Option PyNum :=
  let fv1 : Option PyNum :=
    if dtype.isInteger then
      match fill_value with
      | some v =>
        if v.truthy then
          if !(pyGe v (iinfoMin dtype)) && !(pyLe v (iinfoMax dtype)) then
            some (.pint (iinfoMax dtype))
          else some v
        else some (.pint (iinfoMax dtype))
      | none => some (.pint (iinfoMax dtype))
    else fill_value
  if dtype.isInexact then
    match fv1 with
    | some v => if v.truthy then some v else some (.pfloat .fnan)
    | none => some (.pfloat .fnan)
  else fv1

/-- The `array_metadata` dict literal of `add_nan_array` (lines 179-186). -/
def nanMeta (s : Store) (dtype : Dtype) (fill_value_attrs : JLeaf)
    (compressor filters : JVal) (order : Key) : JDoc :=
  [("zarr_format".data, .leaf (.jint 2)),
   ("shape".data, jints s.shape),
   ("chunks".data, jints s.chunks),
   ("compressor".data, compressor),
   ("dtype".data, .leaf (.jstr dtype.name)),
   ("fill_value".data, .leaf fill_value_attrs),
   ("filters".data, filters),
   ("order".data, .leaf (.jstr order))]

/-- `ChunkStore.add_nan_array` (lines 145-191 of the source). The dtype is
passed as one of the modelled numpy dtypes; its name string is recorded in the
metadata. An error carries the store as mutated so far. -/
def add_nan_array (s : Store) (name : Key) (dtype : Dtype) (fill_value : Option PyNum)
    (compressor : JVal) (filters : JVal) (attrs : Option JDoc) (order : Key) :
    Except (PyError × Store) Store :=
  match resolveFill dtype fill_value with
  | none => .error (.valueError ("fill_value is None".data), s)
  | some v =>
    match scalarBytes dtype v with
    | none => .error (.valueError ("cannot convert float NaN to integer".data), s)
    | some eb =>
      let length := s.chunks.prod
      let data := (List.replicate length eb).flatten
      let fill_value_attrs : JLeaf := jsonOfNum v
      let array_metadata : JDoc := nanMeta s dtype fill_value_attrs compressor filters order
      let v1 := dictSet s.vfs name (.bytes [])
      let v2 := dictSet v1 (name ++ "/.zarray".data) (.bytes (dictToBytes array_metadata))
      match mergeAttrs s.dims attrs with
      | none =>
        .error (.typeError ("dict got multiple values for keyword argument".data),
                { s with vfs := v2 })
      | some za =>
        let v3 := dictSet v2 (name ++ "/.zattrs".data) (.bytes (dictToBytes za))
        let v4 := dictSet v3 (name ++ '/' :: render (List.replicate s.dims.length 0)) (.bytes data)
        .ok { s with vfs := v4 }

/-! ### The MutableMapping read/write interface -/

/-- `ChunkStore.keys()` / iteration order. -/
def storeKeys (s : Store) : List Key := s.vfs.map Prod.fst

/-- `ChunkStore.__contains__`. -/
def Store.hasKey (s : Store) (key : Key) : Bool := (storeKeys s).contains key

/-- `ChunkStore.listdir` (lines 206-214 of the source). -/
def listdir (s : Store) (key : Key) : List Key :=
  if key = [] then (storeKeys s).filter fun k => !k.contains '/'
  else
    let pfx := key ++ ['/']
    let start := pfx.length
    (storeKeys s).filter fun k => pfx.isPrefixOf k && !(k.drop start).contains '/'

/-- `ChunkStore.getsize`: `len(self._vfs[key])`, `KeyError` when absent. The
translation takes no resolver environment: `getsize` never resolves a chunk. -/
def getsize (s : Store) (key : Key) : Except PyError Nat :=
  match dictGet s.vfs key with
  | none => .error (.keyError key)
  | some v => .ok (pyLen v)

/-- Outcome of one `__getitem__` call: the returned value or error, the store
afterwards, and the resolver invocations made (handle, array name, index). -/
structure ReadEffect where
  result : Except PyError (List Nat)
  store : Store
  calls : List (Nat × Key × List Nat)

/-- `ChunkStore.__getitem__` (lines 236-243 of the source): a `bytes` value is
returned directly; a tuple value is unpacked and the resolver is called as
`get_chunk(self, name, index)`, its result returned unchanged. The body never
assigns to `self._vfs`, hence `store := s` in every branch. -/
def getItem (env : Env) (s : Store) (key : Key) : ReadEffect :=
  match dictGet s.vfs key with
  | none => ⟨.error (.keyError key), s, []⟩
  | some (.bytes b) => ⟨.ok b, s, []⟩
  | some (.tup items) =>
    match items with
    | [.sname n, .sindex i, .sresolver g] => ⟨.ok (env g s n i), s, [(g, n, i)]⟩
    | _ => ⟨.error (.valueError ("cannot unpack".data)), s, []⟩

/-- `ChunkStore.__setitem__`: unconditionally raises
`TypeError(f'... is read-only')`. -/
def setItem (s : Store) (key : Key) (value : List Nat) : Except PyError Unit × Store :=
  (.error (.typeError "xcube.core.chunkstore.ChunkStore is read-only".data), s)

/-- `ChunkStore.__delitem__`: unconditionally raises
`TypeError(f'... is read-only')`. -/
def delItem (s : Store) (key : Key) : Except PyError Unit × Store :=
  (.error (.typeError "xcube.core.chunkstore.ChunkStore is read-only".data), s)

/-- Read the same key `n` times in sequence, threading the store state and
collecting all results and resolver invocations. -/
def readMany (env : Env) (s : Store) (key : Key) :
    Nat → List (Except PyError (List Nat)) × Store × List (Nat × Key × List Nat)
  | 0 => ([], s, [])
  | n + 1 =>
    let e := getItem env s key
    let r := readMany env e.store key n
    (e.result :: r.1, r.2.1, e.calls ++ r.2.2)

/-! ### Concrete instances used to exercise the model -/

/-- Extract the store from a registration result (`.ok` expected; an error
also carries a store). -/
def okStore (r : Except (PyError × Store) Store) : Store :=
  match r with
  | .ok t => t
  | .error e => e.2

/-- A sample resolver environment: every handle maps to a resolver returning
the handle followed by the chunk index. -/
def wEnv : Env := fun g _ _ i => g :: i

/-- A sample store holding one lazy chunk descriptor under key `a/0`. -/
def wStoreC3 : Store :=
  { dims := ["x".data], shape := [2], chunks := [1], get_chunk := none,
    vfs := [("a/0".data, .tup [.sname ("a".data), .sindex [0], .sresolver 0])] }

/-- A sample store over dims `(y, x)`, shape `(4, 4)`, chunks `(2, 2)`. -/
def wStore : Store := mkStore ["y".data, "x".data] [4, 4] [2, 2] none none

/-! ### Lemmas: decimal rendering -/

/-- Decimal digit value of a character. -/
def digitVal (c : Char) : Nat := c.toNat - 48

/-- Decode a digit string back to a number (left fold). -/
def decodeDigits (l : List Char) : Nat := l.foldl (fun a c => 10 * a + digitVal c) 0

theorem natDigitsAux_mono (f1 : Nat) : ∀ f2 n, n < f1 → n < f2 →
    natDigitsAux f1 n = natDigitsAux f2 n := by
  induction f1 with
  | zero => intro f2 n h1 _; omega
  | succ f ih =>
    intro f2 n h1 h2
    match f2, h2 with
    | f2' + 1, _ =>
      show natDigitsAux (f + 1) n = natDigitsAux (f2' + 1) n
      unfold natDigitsAux
      by_cases h : n < 10
      · simp [h]
      · have hd : n / 10 < f := by omega
        have hd2 : n / 10 < f2' := by omega
        simp only [h, if_false]
        rw [ih f2' (n / 10) hd hd2]

theorem natDigits_eq (n : Nat) :
    natDigits n = if n < 10 then [digitChar n]
                  else natDigits (n / 10) ++ [digitChar (n % 10)] := by
  by_cases h : n < 10
  · simp [natDigits, natDigitsAux, h]
  · simp only [h, if_false]
    show natDigitsAux (n + 1) n = natDigitsAux (n / 10 + 1) (n / 10) ++ [digitChar (n % 10)]
    conv_lhs => rw [show natDigitsAux (n + 1) n
      = if n < 10 then [digitChar n] else natDigitsAux n (n / 10) ++ [digitChar (n % 10)] from rfl]
    simp only [h, if_false]
    rw [natDigitsAux_mono n (n / 10 + 1) (n / 10) (by omega) (by omega)]

theorem digitVal_digitChar : ∀ d, d < 10 → digitVal (digitChar d) = d := by decide

theorem digitChar_ne_dot : ∀ d, d < 10 → digitChar d ≠ '.' := by decide

theorem digitChar_ne_slash : ∀ d, d < 10 → digitChar d ≠ '/' := by decide

theorem natDigits_ne_nil (n : Nat) : natDigits n ≠ [] := by
  rw [natDigits_eq]
  by_cases h : n < 10 <;> simp [h]

theorem natDigits_mem (n : Nat) : ∀ c ∈ natDigits n, ∃ d, d < 10 ∧ c = digitChar d := by
  induction n using Nat.strong_induction_on with
  | _ n ih =>
    rw [natDigits_eq]
    by_cases h : n < 10
    · simp only [h, if_true, List.mem_singleton]
      intro c hc
      exact ⟨n, h, hc⟩
    · simp only [h, if_false, List.mem_append, List.mem_singleton]
      intro c hc
      rcases hc with hc | hc
      · exact ih (n / 10) (by omega) c hc
      · exact ⟨n % 10, by omega, hc⟩

theorem dot_not_mem_natDigits (n : Nat) : '.' ∉ natDigits n := by
  intro h
  obtain ⟨d, hd, he⟩ := natDigits_mem n '.' h
  exact digitChar_ne_dot d hd he.symm

theorem decode_natDigits (n : Nat) : decodeDigits (natDigits n) = n := by
  induction n using Nat.strong_induction_on with
  | _ n ih =>
    rw [natDigits_eq]
    by_cases h : n < 10
    · simp [h, decodeDigits, List.foldl, digitVal_digitChar n h]
    · simp only [h, if_false]
      unfold decodeDigits
      rw [List.foldl_append]
      have := ih (n / 10) (by omega)
      unfold decodeDigits at this
      rw [this]
      simp [List.foldl, digitVal_digitChar (n % 10) (by omega)]
      omega

theorem natDigits_inj {a b : Nat} (h : natDigits a = natDigits b) : a = b := by
  have := decode_natDigits a
  rw [h, decode_natDigits b] at this
  omega

theorem natDigits_head (n : Nat) :
    ∃ d tl, d < 10 ∧ natDigits n = digitChar d :: tl := by
  rw [natDigits_eq]
  by_cases h : n < 10
  · exact ⟨n, [], h, by simp [h]⟩
  · simp only [h, if_false]
    obtain ⟨d, tl, hd, he⟩ : ∃ d tl, d < 10 ∧ natDigits (n / 10) = digitChar d :: tl := by
      rcases hn : natDigits (n / 10) with _ | ⟨c, tl⟩
      · exact absurd hn (natDigits_ne_nil _)
      · obtain ⟨d, hd, he⟩ := natDigits_mem (n / 10) c (by rw [hn]; exact List.mem_cons_self _ _)
        subst he
        exact ⟨d, tl, hd, rfl⟩
    exact ⟨d, tl ++ [digitChar (n % 10)], hd, by rw [he]; simp⟩

/-- The head of the rendering of a nonempty index is a decimal digit. -/
theorem render_cons_head (n : Nat) (rest : List Nat) :
    ∃ d tl, d < 10 ∧ render (n :: rest) = digitChar d :: tl := by
  obtain ⟨d, tl, hd, he⟩ := natDigits_head n
  cases rest with
  | nil => exact ⟨d, tl, hd, by simpa [render] using he⟩
  | cons m r => exact ⟨d, tl ++ '.' :: render (m :: r), hd, by simp [render, he]⟩

/-- Splitting at the first dot is unambiguous for dot-free left parts. -/
theorem dot_split {a : List Char} : ∀ {b u v : List Char}, '.' ∉ a → '.' ∉ b →
    a ++ '.' :: u = b ++ '.' :: v → a = b ∧ u = v := by
  induction a with
  | nil =>
    intro b u v _ hb h
    cases b with
    | nil => simpa using h
    | cons c cs =>
      simp only [List.nil_append, List.cons_append, List.cons.injEq] at h
      exact absurd h.1.symm (by intro hc; exact hb (hc ▸ List.mem_cons_self _ _))
  | cons c cs ih =>
    intro b u v ha hb h
    cases b with
    | nil =>
      simp only [List.cons_append, List.nil_append, List.cons.injEq] at h
      exact absurd h.1 (by intro hc; exact ha (hc ▸ List.mem_cons_self _ _))
    | cons c' cs' =>
      simp only [List.cons_append, List.cons.injEq] at h
      obtain ⟨h1, h2⟩ := h
      have := ih (List.not_mem_of_not_mem_cons ha) (List.not_mem_of_not_mem_cons hb) h2
      exact ⟨by rw [h1, this.1], this.2⟩

/-- `'.'.join(map(str, index))` is injective on index tuples of equal length. -/
theorem render_inj : ∀ (i : List Nat) {j : List Nat}, i.length = j.length →
    render i = render j → i = j := by
  intro i
  induction i with
  | nil => intro j hl _; cases j with
    | nil => rfl
    | cons _ _ => simp at hl
  | cons n rest ih =>
    intro j hl h
    cases j with
    | nil => simp at hl
    | cons m rest' =>
      cases rest with
      | nil =>
        cases rest' with
        | nil => simp only [render] at h; rw [natDigits_inj h]
        | cons _ _ => simp at hl
      | cons p q =>
        cases rest' with
        | nil => simp at hl
        | cons p' q' =>
          simp only [render] at h
          obtain ⟨h1, h2⟩ :=
            dot_split (dot_not_mem_natDigits n) (dot_not_mem_natDigits m) h
          have : (p :: q) = (p' :: q') := ih (by simpa using hl) h2
          rw [natDigits_inj h1, this]

/-! ### Lemmas: Python dict model -/

theorem dictAny_iff {α : Type} (d : List (Key × α)) (k : Key) :
    (d.any fun p => p.1 = k) = true ↔ k ∈ d.map Prod.fst := by
  induction d with
  | nil => simp
  | cons p rest ih =>
    simp only [List.any_cons, List.map_cons, List.mem_cons, Bool.or_eq_true, decide_eq_true_eq]
    constructor
    · rintro (h | h)
      · exact Or.inl h.symm
      · exact Or.inr (ih.mp h)
    · rintro (h | h)
      · exact Or.inl h.symm
      · exact Or.inr (ih.mpr h)

@[simp] theorem dictGet_nil {α : Type} (k : Key) : dictGet ([] : List (Key × α)) k = none := rfl

@[simp] theorem dictGet_cons {α : Type} (k' k : Key) (v : α) (rest : List (Key × α)) :
    dictGet ((k', v) :: rest) k = if k' = k then some v else dictGet rest k := rfl

theorem dictSet_fresh {α : Type} {d : List (Key × α)} {k : Key} (v : α)
    (h : k ∉ d.map Prod.fst) : dictSet d k v = d ++ [(k, v)] := by
  unfold dictSet
  rw [if_neg]
  intro hc
  exact h ((dictAny_iff d k).mp hc)

theorem dictGet_append_right {α : Type} {d : List (Key × α)} {k : Key}
    (h : k ∉ d.map Prod.fst) (tail : List (Key × α)) :
    dictGet (d ++ tail) k = dictGet tail k := by
  induction d with
  | nil => rfl
  | cons p rest ih =>
    simp only [List.map_cons, List.mem_cons, not_or] at h
    rw [show (p :: rest) ++ tail = (p.1, p.2) :: (rest ++ tail) by simp]
    rw [dictGet_cons, if_neg (fun he => h.1 he.symm), ih h.2]

theorem dictGet_map_update {α : Type} (k : Key) (v : α) :
    ∀ d : List (Key × α), k ∈ d.map Prod.fst →
    dictGet (d.map fun p => if p.1 = k then (k, v) else p) k = some v := by
  intro d
  induction d with
  | nil => intro h; simp at h
  | cons p rest ih =>
    obtain ⟨k1, v1⟩ := p
    intro h
    by_cases hp : k1 = k
    · simp [hp]
    · simp only [List.map_cons, if_neg hp, dictGet_cons]
      apply ih
      simp only [List.map_cons, List.mem_cons] at h
      rcases h with h | h
      · exact absurd h.symm hp
      · exact h

theorem dictGet_dictSet_self {α : Type} (d : List (Key × α)) (k : Key) (v : α) :
    dictGet (dictSet d k v) k = some v := by
  unfold dictSet
  by_cases h : (d.any fun p => p.1 = k) = true
  · rw [if_pos h]
    exact dictGet_map_update k v d ((dictAny_iff d k).mp h)
  · rw [if_neg h]
    have hk : k ∉ d.map Prod.fst := fun hc => h ((dictAny_iff d k).mpr hc)
    rw [dictGet_append_right hk]
    simp

theorem dictGet_map_update_ne {α : Type} {k' k : Key} (v : α) (h : k' ≠ k) :
    ∀ d : List (Key × α),
    dictGet (d.map fun p => if p.1 = k' then (k', v) else p) k = dictGet d k := by
  intro d
  induction d with
  | nil => rfl
  | cons p rest ih =>
    obtain ⟨k1, v1⟩ := p
    by_cases hp : k1 = k'
    · simp only [List.map_cons, if_pos hp, dictGet_cons]
      rw [if_neg h, if_neg (fun hc : k1 = k => h (hp ▸ hc)), ih]
    · simp only [List.map_cons, if_neg hp, dictGet_cons]
      by_cases hk : k1 = k
      · rw [if_pos hk, if_pos hk]
      · rw [if_neg hk, if_neg hk, ih]

theorem dictGet_append_single_ne {α : Type} {k' k : Key} (v : α) (h : k' ≠ k) :
    ∀ d : List (Key × α), dictGet (d ++ [(k', v)]) k = dictGet d k := by
  intro d
  induction d with
  | nil => simp [if_neg h]
  | cons p rest ih =>
    obtain ⟨k1, v1⟩ := p
    rw [List.cons_append, dictGet_cons, dictGet_cons]
    by_cases hk : k1 = k
    · rw [if_pos hk, if_pos hk]
    · rw [if_neg hk, if_neg hk, ih]

theorem dictGet_dictSet_ne {α : Type} (d : List (Key × α)) {k' k : Key} (v : α)
    (h : k' ≠ k) : dictGet (dictSet d k' v) k = dictGet d k := by
  unfold dictSet
  by_cases ha : (d.any fun p => p.1 = k') = true
  · rw [if_pos ha]
    exact dictGet_map_update_ne v h d
  · rw [if_neg ha]
    exact dictGet_append_single_ne v h d

theorem keys_dictSet_mem {α : Type} (d : List (Key × α)) (k : Key) (v : α)
    (h : k ∈ d.map Prod.fst) :
    (dictSet d k v).map Prod.fst = d.map Prod.fst := by
  unfold dictSet
  rw [if_pos ((dictAny_iff d k).mpr h)]
  rw [List.map_map]
  apply List.map_congr_left
  intro p _
  by_cases hp : p.1 = k
  · simp [hp]
  · simp [hp]

theorem keys_dictSet_fresh {α : Type} (d : List (Key × α)) (k : Key) (v : α)
    (h : k ∉ d.map Prod.fst) :
    (dictSet d k v).map Prod.fst = d.map Prod.fst ++ [k] := by
  rw [dictSet_fresh v h]
  simp

/-- Folding fresh distinct-key insertions over a dict appends the new pairs in
order. -/
theorem foldl_dictSet_append {α β : Type} (κ : β → Key) (ν : β → α) :
    ∀ (l : List β) (d0 : List (Key × α)),
    (∀ x ∈ l, κ x ∉ d0.map Prod.fst) → (l.map κ).Nodup →
    l.foldl (fun d x => dictSet d (κ x) (ν x)) d0 = d0 ++ l.map (fun x => (κ x, ν x)) := by
  intro l
  induction l with
  | nil => intro d0 _ _; simp
  | cons x rest ih =>
    intro d0 hfresh hnd
    simp only [List.foldl_cons]
    rw [dictSet_fresh (ν x) (hfresh x (List.mem_cons_self _ _))]
    simp only [List.map_cons, List.nodup_cons] at hnd
    rw [ih (d0 ++ [(κ x, ν x)]) ?_ hnd.2]
    · simp
    · intro y hy
      simp only [List.map_append, List.mem_append, List.map_cons]
      rintro (hc | hc)
      · exact hfresh y (List.mem_cons_of_mem _ hy) hc
      · simp only [List.map_nil, List.mem_singleton] at hc
        exact hnd.1 (hc ▸ List.mem_map_of_mem κ hy)

/-- A fold of insertions whose keys all differ from `k` does not change the
value bound to `k`. -/
theorem dictGet_foldl_ne {α β : Type} (κ : β → Key) (ν : β → α) :
    ∀ (l : List β) (d0 : List (Key × α)) (k : Key), (∀ x ∈ l, κ x ≠ k) →
    dictGet (l.foldl (fun d x => dictSet d (κ x) (ν x)) d0) k = dictGet d0 k := by
  intro l
  induction l with
  | nil => intro d0 k _; rfl
  | cons x rest ih =>
    intro d0 k h
    simp only [List.foldl_cons]
    rw [ih (dictSet d0 (κ x) (ν x)) k (fun y hy => h y (List.mem_cons_of_mem _ hy))]
    exact dictGet_dictSet_ne d0 (ν x) (h x (List.mem_cons_self _ _))

/-- After folding insertions with pairwise distinct keys, each inserted key is
bound to its inserted value. -/
theorem dictGet_foldl_mem {α β : Type} (κ : β → Key) (ν : β → α) :
    ∀ (l : List β) (d0 : List (Key × α)) (x : β), x ∈ l → (l.map κ).Nodup →
    dictGet (l.foldl (fun d y => dictSet d (κ y) (ν y)) d0) (κ x) = some (ν x) := by
  intro l
  induction l with
  | nil => intro d0 x hx; simp at hx
  | cons y rest ih =>
    intro d0 x hx hnd
    simp only [List.map_cons, List.nodup_cons] at hnd
    rcases List.mem_cons.mp hx with he | hm
    · subst he
      simp only [List.foldl_cons]
      rw [dictGet_foldl_ne κ ν rest (dictSet d0 (κ x) (ν x)) (κ x) ?_]
      · exact dictGet_dictSet_self d0 (κ x) (ν x)
      · intro z hz hc
        exact hnd.1 (hc ▸ List.mem_map_of_mem κ hz)
    · simp only [List.foldl_cons]
      exact ih (dictSet d0 (κ y) (ν y)) x hm hnd.2

/-! ### Lemmas: the chunk-index grid -/

theorem length_flatMap_const {α β : Type} (l : List α) (f : α → List β) (k : Nat)
    (h : ∀ a ∈ l, (f a).length = k) : (l.flatMap f).length = l.length * k := by
  induction l with
  | nil => simp
  | cons a rest ih =>
    simp only [List.flatMap_cons, List.length_append, List.length_cons,
      h a (List.mem_cons_self _ _), ih (fun b hb => h b (List.mem_cons_of_mem _ hb))]
    ring

/-- `itertools.product` over the per-dimension ranges has exactly
`∏ nums[i]` elements. -/
theorem cartesian_length (g : List Nat) : (cartesian g).length = g.prod := by
  induction g with
  | nil => rfl
  | cons n rest ih =>
    simp only [cartesian, List.prod_cons]
    rw [length_flatMap_const _ _ (cartesian rest).length (fun a _ => by simp)]
    simp [ih, Nat.mul_comm]

theorem mem_cartesian_length {g : List Nat} :
    ∀ {t : List Nat}, t ∈ cartesian g → t.length = g.length := by
  induction g with
  | nil => intro t ht; simp only [cartesian, List.mem_singleton] at ht; simp [ht]
  | cons n rest ih =>
    intro t ht
    simp only [cartesian, List.mem_flatMap, List.mem_map] at ht
    obtain ⟨i, _, u, hu, he⟩ := ht
    subst he
    simp [ih hu]

theorem cartesian_nodup (g : List Nat) : (cartesian g).Nodup := by
  induction g with
  | nil => simp [cartesian]
  | cons n rest ih =>
    simp only [cartesian]
    rw [List.nodup_flatMap]
    refine ⟨fun i _ => ih.map fun a b hab => by injection hab, ?_⟩
    apply List.Pairwise.imp ?_ (List.nodup_range n)
    intro i j hij
    simp only [List.disjoint_left, List.mem_map]
    rintro t ⟨u, _, he⟩ ⟨u', _, he'⟩
    rw [← he] at he'
    injection he' with h1 _
    exact hij h1.symm

/-! ### Lemmas: key shapes -/

theorem render_ne_dot_cons (i : List Nat) (rest : List Char) : render i ≠ '.' :: rest := by
  cases i with
  | nil => simp [render]
  | cons n r =>
    obtain ⟨d, tl, hd, he⟩ := render_cons_head n r
    rw [he]
    intro hc
    injection hc with h1 _
    exact digitChar_ne_dot d hd h1

theorem append_cons_ne_self (name : Key) (c : Char) (rest : List Char) :
    name ++ c :: rest ≠ name := by
  intro h
  have := congrArg List.length h
  simp at this

theorem chunk_key_ne_zarray (name : Key) (i : List Nat) :
    name ++ '/' :: render i ≠ name ++ "/.zarray".data := by
  intro h
  have h2 : '/' :: render i = '/' :: '.' :: "zarray".data := List.append_cancel_left h
  injection h2 with _ h3
  exact render_ne_dot_cons i _ h3

theorem chunk_key_ne_zattrs (name : Key) (i : List Nat) :
    name ++ '/' :: render i ≠ name ++ "/.zattrs".data := by
  intro h
  have h2 : '/' :: render i = '/' :: '.' :: "zattrs".data := List.append_cancel_left h
  injection h2 with _ h3
  exact render_ne_dot_cons i _ h3

theorem zarray_ne_zattrs (name : Key) :
    name ++ "/.zarray".data ≠ name ++ "/.zattrs".data := by
  intro h
  have h2 : "/.zarray".data = "/.zattrs".data := List.append_cancel_left h
  exact absurd h2 (by decide)

theorem prefix_of_extend (name : Key) (c : Char) (rest : List Char) :
    (name ++ [c]).isPrefixOf (name ++ c :: rest) = true := by
  rw [List.isPrefixOf_iff_prefix]
  exact ⟨rest, by simp⟩

/-- Chunk keys of the same array are injective in the index (for indexes from
the same grid). -/
theorem chunk_key_inj (name : Key) {g : List Nat} {i j : List Nat}
    (hi : i ∈ cartesian g) (hj : j ∈ cartesian g)
    (h : name ++ '/' :: render i = name ++ '/' :: render j) : i = j := by
  have h2 := List.append_cancel_left h
  injection h2 with _ h3
  exact render_inj i (by rw [mem_cartesian_length hi, mem_cartesian_length hj]) h3

/-! ### Lemmas: unfolding the registration operations -/

theorem flatten_replicate_singleton {α : Type} (n : Nat) (a : α) :
    (List.replicate n [a]).flatten = List.replicate n a := by
  induction n with
  | zero => rfl
  | succ m ih => simp [List.replicate_succ, ih]

theorem integer_not_inexact (dt : Dtype) (h : dt.isInteger = true) : dt.isInexact = false := by
  cases dt <;> revert h <;> decide

theorem inexact_not_integer (dt : Dtype) (h : dt.isInexact = true) : dt.isInteger = false := by
  cases dt <;> revert h <;> decide

theorem chunk_keys_nodup (name : Key) (g : List Nat) :
    ((cartesian g).map fun i => name ++ '/' :: render i).Nodup :=
  (List.nodup_map_iff_inj_on (cartesian_nodup g)).mpr
    (fun i hi j hj he => chunk_key_inj name hi hj he)

theorem add_lazy_ok (s : Store) (name dtype : Key) (fv : Option PyNum)
    (comp filt : JVal) (ord : Key) (attrs : Option JDoc) (g0 : Nat) (s' : Store)
    (hok : add_lazy_array s name dtype fv comp filt ord attrs (some g0) = .ok s') :
    ∃ za, mergeAttrs s.dims attrs = some za ∧
      s'.vfs = (cartesian (List.zipWith (fun a b => a / b) s.shape s.chunks)).foldl
        (fun d index => dictSet d (name ++ '/' :: render index)
          (.tup [.sname name, .sindex index, .sresolver g0]))
        (dictSet
          (dictSet (dictSet s.vfs name (.bytes []))
            (name ++ "/.zarray".data)
            (.bytes (dictToBytes (lazyMeta s dtype fv comp filt ord))))
          (name ++ "/.zattrs".data) (.bytes (dictToBytes za)))
      ∧ s'.dims = s.dims ∧ s'.shape = s.shape ∧ s'.chunks = s.chunks := by
  unfold add_lazy_array at hok
  split at hok
  · exact absurd hok (by simp)
  next g hg =>
    have hgg : g = g0 := by
      rw [show (some g0).orElse (fun _ => s.get_chunk) = some g0 from rfl] at hg
      injection hg with h
      exact h.symm
    subst hgg
    split at hok
    · exact absurd hok (by simp)
    next za hm =>
      simp only [Except.ok.injEq] at hok
      refine ⟨za, hm, ?_, ?_, ?_, ?_⟩ <;> rw [← hok]

theorem add_nan_ok (s : Store) (name : Key) (dt : Dtype) (fv : Option PyNum)
    (comp filt : JVal) (attrs : Option JDoc) (ord : Key) (s' : Store)
    (hok : add_nan_array s name dt fv comp filt attrs ord = .ok s') :
    ∃ v eb za, resolveFill dt fv = some v ∧ scalarBytes dt v = some eb ∧
      mergeAttrs s.dims attrs = some za ∧
      s'.vfs = dictSet
        (dictSet
          (dictSet (dictSet s.vfs name (.bytes []))
            (name ++ "/.zarray".data)
            (.bytes (dictToBytes (nanMeta s dt (jsonOfNum v) comp filt ord))))
          (name ++ "/.zattrs".data) (.bytes (dictToBytes za)))
        (name ++ '/' :: render (List.replicate s.dims.length 0))
        (.bytes ((List.replicate s.chunks.prod eb).flatten)) := by
  unfold add_nan_array at hok
  split at hok
  · exact absurd hok (by simp)
  next v hv =>
    split at hok
    · exact absurd hok (by simp)
    next eb he =>
      split at hok
      · exact absurd hok (by simp)
      next za hm =>
        simp only [Except.ok.injEq] at hok
        exact ⟨v, eb, za, hv, he, hm, by rw [← hok]⟩

/-! ### Claim theorems -/

/-- C3: chunk resolution is never memoized. For every key bound to a lazy
chunk descriptor, reading it `N` times produces `N` identical successful
results, each equal to the resolver applied to `(store, array-name,
chunk-index)`, causes exactly `N` resolver invocations (the trace is `N`
copies of the invocation record), and leaves the store's entry mapping
unchanged. -/
theorem C3_no_memoization (env : Env) (s : Store) (key nm : Key) (ix : List Nat)
    (g N : Nat)
    (h : dictGet s.vfs key = some (.tup [.sname nm, .sindex ix, .sresolver g])) :
    readMany env s key N
      = (List.replicate N (.ok (env g s nm ix)), s, List.replicate N (g, nm, ix)) := by
  have hg : getItem env s key = ⟨.ok (env g s nm ix), s, [(g, nm, ix)]⟩ := by
    unfold getItem
    rw [h]
  induction N with
  | zero => rfl
  | succ n ih =>
    simp only [readMany, hg, ih]
    simp [List.replicate_succ]

/-- C3 witness: a concrete store with one lazy descriptor, read twice,
yields both results from the resolver, two invocation records, and the
unchanged store. -/
theorem C3_witness :
    readMany wEnv wStoreC3 ("a/0".data) 2
      = (List.replicate 2 (.ok (wEnv 0 wStoreC3 ("a".data) [0])),
         wStoreC3, List.replicate 2 (0, "a".data, [0])) :=
  C3_no_memoization wEnv wStoreC3 ("a/0".data) ("a".data) [0] 0 2 rfl

/-- C5: every `set` and every `delete` on a constructed store, for every key
(present or not), raises the read-only `TypeError`, and the store's entry
mapping is unchanged by the attempt. -/
theorem C5_read_only (s : Store) (key : Key) (value : List Nat) :
    setItem s key value
      = (.error (.typeError ("xcube.core.chunkstore.ChunkStore is read-only".data)), s)
    ∧ delItem s key
      = (.error (.typeError ("xcube.core.chunkstore.ChunkStore is read-only".data)), s) :=
  ⟨rfl, rfl⟩

/-- C6: `add_array` round trip. For every array, after `add_array` the single
all-zero chunk key (one `0` coordinate per array dimension) reads back as
exactly the array's raw row-major (C-order) buffer; in particular, for every
2-D array given by its rows (such as a 2x2 integer array) the bytes read back
are the concatenation, row by row, of each row's element encodings. -/
theorem C6_add_array_roundtrip (env : Env) (s : Store) (name : Key) (a : NDArray)
    (d : Dtype) (rows : List (List Int)) (attrs : JDoc) :
    (getItem env (add_array s name a attrs)
        (name ++ '/' :: render (List.replicate a.shape.length 0))).result
      = .ok a.tobytes
    ∧ (getItem env (add_array s name (NDArray.ofMatrix d rows) attrs)
        (name ++ "/0.0".data)).result
      = .ok ((rows.map fun r => (r.map (elemBytes d)).flatten).flatten) := by
  have general : ∀ b : NDArray,
      (getItem env (add_array s name b attrs)
          (name ++ '/' :: render (List.replicate b.shape.length 0))).result
        = .ok b.tobytes := by
    intro b
    have hget : dictGet (add_array s name b attrs).vfs
        (name ++ '/' :: render (List.replicate b.shape.length 0))
        = some (.bytes b.tobytes) :=
      dictGet_dictSet_self _ _ _
    have hitem : getItem env (add_array s name b attrs)
        (name ++ '/' :: render (List.replicate b.shape.length 0))
        = ⟨.ok b.tobytes, add_array s name b attrs, []⟩ := by
      unfold getItem
      rw [hget]
    rw [hitem]
  refine ⟨general a, ?_⟩
  have hkey : name ++ "/0.0".data
      = name ++ '/' :: render (List.replicate (NDArray.ofMatrix d rows).shape.length 0) := rfl
  rw [hkey, general (NDArray.ofMatrix d rows)]
  show Except.ok ((rows.flatten.map (elemBytes d)).flatten) = _
  congr 1
  rw [List.map_flatten, List.flatten_flatten, List.map_map]
  rfl

/-- C7: `listdir` returns exactly the direct children. A key is in
`listdir s p` iff it is a store key and, for the empty prefix, contains no
path separator, and otherwise decomposes as `p ++ '/' ++ rest` with no
further separator in `rest`. -/
theorem C7_listdir_direct_children (s : Store) (p k : Key) :
    k ∈ listdir s p ↔
      k ∈ storeKeys s ∧
        ((p = [] ∧ '/' ∉ k) ∨ (p ≠ [] ∧ ∃ rest, k = p ++ '/' :: rest ∧ '/' ∉ rest)) := by
  unfold listdir
  by_cases hp : p = []
  · subst hp
    rw [if_pos rfl, List.mem_filter]
    constructor
    · rintro ⟨hm, hc⟩
      refine ⟨hm, Or.inl ⟨rfl, ?_⟩⟩
      simpa using hc
    · rintro ⟨hm, h⟩
      refine ⟨hm, ?_⟩
      rcases h with ⟨_, hnotin⟩ | ⟨hne, _⟩
      · simpa using hnotin
      · exact absurd rfl hne
  · rw [if_neg hp, List.mem_filter]
    simp only [Bool.and_eq_true, Bool.not_eq_true']
    constructor
    · rintro ⟨hm, hpre, hcon⟩
      refine ⟨hm, Or.inr ⟨hp, ?_⟩⟩
      rw [List.isPrefixOf_iff_prefix] at hpre
      obtain ⟨t, ht⟩ := hpre
      refine ⟨t, by rw [← ht]; simp, ?_⟩
      rw [← ht, List.drop_left] at hcon
      simpa using hcon
    · rintro ⟨hm, h | h⟩
      · exact absurd h.1 hp
      · obtain ⟨_, rest, hk, hns⟩ := h
        refine ⟨hm, ?_, ?_⟩
        · rw [List.isPrefixOf_iff_prefix]
          exact ⟨rest, by rw [hk]; simp⟩
        · have : k = (p ++ ['/']) ++ rest := by rw [hk]; simp
          rw [this, List.drop_left]
          simpa using hns

theorem mergeAttrs_some {dims : List Key} {attrs : Option JDoc} {za : JDoc}
    (h : mergeAttrs dims attrs = some za) :
    za = ("_ARRAY_DIMENSIONS".data, jstrs dims) :: attrs.getD [] := by
  unfold mergeAttrs at h
  dsimp only at h
  split at h
  · exact absurd h (by simp)
  · injection h with h
    exact h.symm

/-- C9: for every chunk key registered by `add_lazy_array`, `getsize` returns
3 — the element count of the stored `(name, index, resolver)` tuple — not the
chunk's byte size. The translation of `getsize` takes no resolver
environment at all: it cannot invoke the resolver. -/
theorem C9_getsize_lazy (s : Store) (name dtype : Key) (fv : Option PyNum)
    (comp filt : JVal) (ord : Key) (attrs : Option JDoc) (g0 : Nat) (s' : Store)
    (i : List Nat)
    (hok : add_lazy_array s name dtype fv comp filt ord attrs (some g0) = .ok s')
    (hi : i ∈ cartesian (List.zipWith (fun a b => a / b) s.shape s.chunks)) :
    getsize s' (name ++ '/' :: render i) = .ok 3 := by
  obtain ⟨za, hm, hv, _, _, _⟩ := add_lazy_ok s name dtype fv comp filt ord attrs g0 s' hok
  have hget : dictGet s'.vfs (name ++ '/' :: render i)
      = some (.tup [.sname name, .sindex i, .sresolver g0]) := by
    rw [hv]
    exact dictGet_foldl_mem (fun index => name ++ '/' :: render index)
      (fun index => Value.tup [Item.sname name, Item.sindex index, Item.sresolver g0])
      _ _ i hi (chunk_keys_nodup name _)
  unfold getsize
  rw [hget]
  rfl

/-- C9 witness: a 2x2-grid lazy array in the sample store; `getsize` of chunk
key `v/0.1` is 3. -/
theorem C9_witness :
    getsize (okStore (add_lazy_array wStore ("v".data) ("uint8".data) none
        (.leaf .jnull) (.leaf .jnull) ("C".data) none (some 0))) ("v/0.1".data) = .ok 3 :=
  C9_getsize_lazy wStore ("v".data) ("uint8".data) none (.leaf .jnull) (.leaf .jnull)
    ("C".data) none 0 _ [0, 1] rfl (by decide)

/-- C2 (amended): arrays registered via `add_lazy_array` and `add_nan_array`
store a `.zattrs` document whose first field is `_ARRAY_DIMENSIONS` with the
store's dimension names, followed by the caller attributes; `add_array`
stores exactly the caller-supplied attributes, with NO `_ARRAY_DIMENSIONS`
added. -/
theorem C2_zattrs_dimensions
    (s : Store) (name nameN nameA : Key) (dtype : Key) (dt : Dtype)
    (fv fvN : Option PyNum) (comp filt compN filtN : JVal) (ord ordN : Key)
    (attrs attrsN : Option JDoc) (attrsA : JDoc) (g0 : Nat) (arr : NDArray)
    (sL sN : Store)
    (hL : add_lazy_array s name dtype fv comp filt ord attrs (some g0) = .ok sL)
    (hN : add_nan_array s nameN dt fvN compN filtN attrsN ordN = .ok sN) :
    dictGet sL.vfs (name ++ "/.zattrs".data)
      = some (.bytes (dictToBytes
          (("_ARRAY_DIMENSIONS".data, jstrs s.dims) :: attrs.getD [])))
    ∧ dictGet sN.vfs (nameN ++ "/.zattrs".data)
      = some (.bytes (dictToBytes
          (("_ARRAY_DIMENSIONS".data, jstrs s.dims) :: attrsN.getD [])))
    ∧ dictGet (add_array s nameA arr attrsA).vfs (nameA ++ "/.zattrs".data)
      = some (.bytes (dictToBytes attrsA)) := by
  refine ⟨?_, ?_, ?_⟩
  · obtain ⟨za, hm, hv, _, _, _⟩ := add_lazy_ok s name dtype fv comp filt ord attrs g0 sL hL
    rw [hv, dictGet_foldl_ne _ _ _ _ _ (fun index _ => chunk_key_ne_zattrs name index),
      dictGet_dictSet_self, ← mergeAttrs_some hm]
  · obtain ⟨v, eb, za, _, _, hm, hv⟩ := add_nan_ok s nameN dt fvN compN filtN attrsN ordN sN hN
    rw [hv, dictGet_dictSet_ne _ _ (chunk_key_ne_zattrs nameN _),
      dictGet_dictSet_self, ← mergeAttrs_some hm]
  · unfold add_array
    dsimp only
    rw [dictGet_dictSet_ne _ _ (chunk_key_ne_zattrs nameA _), dictGet_dictSet_self]

/-- C2 witness: in the sample store, a lazy array `u` and a nan array `un`
carry `_ARRAY_DIMENSIONS` in `.zattrs`; `add_array`'s `w` stores the empty
caller attributes verbatim. -/
theorem C2_witness :
    dictGet (okStore (add_lazy_array wStore ("u".data) ("uint8".data) none (.leaf .jnull)
        (.leaf .jnull) ("C".data) none (some 0))).vfs ("u/.zattrs".data)
      = some (.bytes (dictToBytes [("_ARRAY_DIMENSIONS".data, jstrs wStore.dims)]))
    ∧ dictGet (okStore (add_nan_array wStore ("un".data) .uint8 none (.leaf .jnull)
        (.leaf .jnull) none ("C".data))).vfs ("un/.zattrs".data)
      = some (.bytes (dictToBytes [("_ARRAY_DIMENSIONS".data, jstrs wStore.dims)]))
    ∧ dictGet (add_array wStore ("w".data) (NDArray.ofMatrix .int32 [[1, 2], [3, 4]]) []).vfs
        ("w/.zattrs".data)
      = some (.bytes (dictToBytes [])) :=
  C2_zattrs_dimensions wStore ("u".data) ("un".data) ("w".data) ("uint8".data) .uint8
    none none (.leaf .jnull) (.leaf .jnull) (.leaf .jnull) (.leaf .jnull) ("C".data)
    ("C".data) none none [] 0 (NDArray.ofMatrix .int32 [[1, 2], [3, 4]]) _ _ rfl rfl

/-- C2 counterexample: for `add_array` the stored `.zattrs` document is the
serialization of exactly the caller attributes (here the empty object, the
two bytes 0x7b 0x7d) — it does not contain an `_ARRAY_DIMENSIONS` attribute,
refuting the claim for `add_array`. -/
theorem C2_counterexample :
    dictGet (add_array wStore ("a".data) (NDArray.ofMatrix .int32 [[1, 2], [3, 4]]) []).vfs
        ("a/.zattrs".data)
      = some (.bytes (dictToBytes []))
    ∧ dictToBytes [] = [123, 125] := by
  exact ⟨rfl, by decide⟩

/-- C8: `add_nan_array` with dtype uint8 and no fill value records a metadata
fill value of 255 (a JSON integer, the dtype maximum) and materializes one
chunk of `prod(chunks)` bytes, all 255. -/
theorem C8_nan_uint8 (s : Store) (name : Key) (comp filt : JVal) (attrs : Option JDoc)
    (ord : Key) (s' : Store)
    (hok : add_nan_array s name .uint8 none comp filt attrs ord = .ok s') :
    dictGet s'.vfs (name ++ "/.zarray".data)
      = some (.bytes (dictToBytes (nanMeta s .uint8 (.jint 255) comp filt ord)))
    ∧ dictGet s'.vfs (name ++ '/' :: render (List.replicate s.dims.length 0))
      = some (.bytes (List.replicate s.chunks.prod 255)) := by
  obtain ⟨v, eb, za, hv, he, hm, hvfs⟩ := add_nan_ok s name .uint8 none comp filt attrs ord s' hok
  have hv' : v = .pint 255 := by
    rw [show resolveFill .uint8 none = some (.pint 255) from rfl] at hv
    injection hv with h
    exact h.symm
  subst hv'
  have he' : eb = [255] := by
    rw [show scalarBytes .uint8 (.pint 255) = some [255] by decide] at he
    injection he with h
    exact h.symm
  subst he'
  constructor
  · rw [hvfs, dictGet_dictSet_ne _ _ (chunk_key_ne_zarray name _),
      dictGet_dictSet_ne _ _ (fun h => zarray_ne_zattrs name h.symm),
      dictGet_dictSet_self]
    rfl
  · rw [hvfs, dictGet_dictSet_self, flatten_replicate_singleton]

/-- C8 witness: in the sample store (chunks 2x2), the nan array `v` has
metadata fill value 255 and a 4-byte chunk of 255s. -/
theorem C8_witness :
    dictGet (okStore (add_nan_array wStore ("v".data) .uint8 none (.leaf .jnull)
        (.leaf .jnull) none ("C".data))).vfs ("v/.zarray".data)
      = some (.bytes (dictToBytes (nanMeta wStore .uint8 (.jint 255) (.leaf .jnull)
          (.leaf .jnull) ("C".data))))
    ∧ dictGet (okStore (add_nan_array wStore ("v".data) .uint8 none (.leaf .jnull)
        (.leaf .jnull) none ("C".data))).vfs ("v/0.0".data)
      = some (.bytes (List.replicate 4 255)) :=
  C8_nan_uint8 wStore ("v".data) (.leaf .jnull) (.leaf .jnull) none ("C".data) _ rfl

/-- C10: `add_nan_array` treats a falsy explicit fill value as absent. For
every integer dtype, fill value 0 is replaced by the dtype maximum, which is
recorded in the metadata and fills the chunk payload; for every floating
dtype, fill value 0.0 is replaced by NaN. -/
theorem C10_falsy_fill_value (dt dtF : Dtype) (s : Store) (name : Key) (comp filt : JVal)
    (attrs : Option JDoc) (ord : Key) (s' : Store)
    (hInt : dt.isInteger = true)
    (hok : add_nan_array s name dt (some (.pint 0)) comp filt attrs ord = .ok s')
    (hFlo : dtF.isInexact = true) :
    resolveFill dt (some (.pint 0)) = some (.pint (iinfoMax dt))
    ∧ dictGet s'.vfs (name ++ "/.zarray".data)
        = some (.bytes (dictToBytes (nanMeta s dt (.jint (iinfoMax dt)) comp filt ord)))
    ∧ dictGet s'.vfs (name ++ '/' :: render (List.replicate s.dims.length 0))
        = some (.bytes ((List.replicate s.chunks.prod (intBytes dt (iinfoMax dt))).flatten))
    ∧ resolveFill dtF (some (.pfloat (.fint 0))) = some (.pfloat .fnan) := by
  have hres : resolveFill dt (some (.pint 0)) = some (.pint (iinfoMax dt)) := by
    unfold resolveFill
    simp [hInt, integer_not_inexact dt hInt, PyNum.truthy]
  have hresF : resolveFill dtF (some (.pfloat (.fint 0))) = some (.pfloat .fnan) := by
    unfold resolveFill
    simp [hFlo, inexact_not_integer dtF hFlo, PyNum.truthy]
  obtain ⟨v, eb, za, hv, he, hm, hvfs⟩ :=
    add_nan_ok s name dt (some (.pint 0)) comp filt attrs ord s' hok
  rw [hres] at hv
  injection hv with hv
  subst hv
  have he' : eb = intBytes dt (iinfoMax dt) := by
    unfold scalarBytes at he
    rw [hInt] at he
    simp at he
    exact he.symm
  subst he'
  refine ⟨hres, ?_, ?_, hresF⟩
  · rw [hvfs, dictGet_dictSet_ne _ _ (chunk_key_ne_zarray name _),
      dictGet_dictSet_ne _ _ (fun h => zarray_ne_zattrs name h.symm),
      dictGet_dictSet_self]
    rfl
  · rw [hvfs, dictGet_dictSet_self]

/-- C10 witness: uint8 with fill 0 records and materializes 255; float64 with
fill 0.0 resolves to NaN. -/
theorem C10_witness :
    resolveFill .uint8 (some (.pint 0)) = some (.pint (iinfoMax .uint8))
    ∧ dictGet (okStore (add_nan_array wStore ("v".data) .uint8 (some (.pint 0))
        (.leaf .jnull) (.leaf .jnull) none ("C".data))).vfs ("v/.zarray".data)
      = some (.bytes (dictToBytes (nanMeta wStore .uint8 (.jint (iinfoMax .uint8))
          (.leaf .jnull) (.leaf .jnull) ("C".data))))
    ∧ dictGet (okStore (add_nan_array wStore ("v".data) .uint8 (some (.pint 0))
        (.leaf .jnull) (.leaf .jnull) none ("C".data))).vfs ("v/0.0".data)
      = some (.bytes ((List.replicate wStore.chunks.prod
          (intBytes .uint8 (iinfoMax .uint8))).flatten))
    ∧ resolveFill .float64 (some (.pfloat (.fint 0))) = some (.pfloat .fnan) :=
  C10_falsy_fill_value .uint8 .float64 wStore ("v".data) (.leaf .jnull) (.leaf .jnull)
    none ("C".data) _ rfl rfl rfl

/-- C4: for a valid store (positive chunk sizes no larger than the extents)
and a fresh array name, `add_lazy_array` registers exactly the array key, one
array-descriptor key, one array-attributes key, and one chunk key per index
in the Cartesian product of `range(shape[i] // chunks[i])` (dot-joined decimal
coordinates); these chunk keys are pairwise distinct and number exactly
`prod(shape[i] // chunks[i])`. -/
theorem C4_lazy_key_count (s : Store) (name dtype : Key) (fv : Option PyNum)
    (comp filt : JVal) (ord : Key) (attrs : Option JDoc) (g0 : Nat) (s' : Store)
    (hvalid : ∀ p ∈ List.zip s.chunks s.shape, 0 < p.1 ∧ p.1 ≤ p.2)
    (hfresh : name ∉ storeKeys s)
    (hpref : ∀ k ∈ storeKeys s, ¬ (name ++ ['/']) <+: k)
    (hok : add_lazy_array s name dtype fv comp filt ord attrs (some g0) = .ok s') :
    storeKeys s'
      = storeKeys s ++ name :: (name ++ "/.zarray".data) :: (name ++ "/.zattrs".data)
          :: ((cartesian (List.zipWith (fun a b => a / b) s.shape s.chunks)).map
               fun i => name ++ '/' :: render i)
    ∧ ((cartesian (List.zipWith (fun a b => a / b) s.shape s.chunks)).map
         fun i => name ++ '/' :: render i).length
        = (List.zipWith (fun a b => a / b) s.shape s.chunks).prod
    ∧ ((cartesian (List.zipWith (fun a b => a / b) s.shape s.chunks)).map
         fun i => name ++ '/' :: render i).Nodup := by
  obtain ⟨za, hm, hv, _, _, _⟩ := add_lazy_ok s name dtype fv comp filt ord attrs g0 s' hok
  have hpf : ∀ rest : List Char, (name ++ '/' :: rest) ∉ storeKeys s := by
    intro rest hmem
    exact hpref _ hmem ⟨rest, by simp⟩
  have hzarr_eq : name ++ "/.zarray".data = name ++ '/' :: ".zarray".data := rfl
  have hzatt_eq : name ++ "/.zattrs".data = name ++ '/' :: ".zattrs".data := rfl
  have hzk_not : (name ++ "/.zarray".data) ∉ storeKeys s := by rw [hzarr_eq]; exact hpf _
  have hak_not : (name ++ "/.zattrs".data) ∉ storeKeys s := by rw [hzatt_eq]; exact hpf _
  have hzk_ne_name : name ++ "/.zarray".data ≠ name := by
    rw [hzarr_eq]; exact append_cons_ne_self _ _ _
  have hak_ne_name : name ++ "/.zattrs".data ≠ name := by
    rw [hzatt_eq]; exact append_cons_ne_self _ _ _
  have hk1 : (dictSet s.vfs name (Value.bytes [])).map Prod.fst = storeKeys s ++ [name] :=
    keys_dictSet_fresh _ _ _ hfresh
  have hfr2 : (name ++ "/.zarray".data)
      ∉ (dictSet s.vfs name (Value.bytes [])).map Prod.fst := by
    rw [hk1]
    simp only [List.mem_append, List.mem_singleton]
    rintro (h | h)
    · exact hzk_not h
    · exact hzk_ne_name h
  have hk2 := keys_dictSet_fresh (dictSet s.vfs name (Value.bytes []))
    (name ++ "/.zarray".data)
    (Value.bytes (dictToBytes (lazyMeta s dtype fv comp filt ord))) hfr2
  rw [hk1] at hk2
  have hfr3 : (name ++ "/.zattrs".data)
      ∉ (dictSet (dictSet s.vfs name (Value.bytes [])) (name ++ "/.zarray".data)
          (Value.bytes (dictToBytes (lazyMeta s dtype fv comp filt ord)))).map Prod.fst := by
    rw [hk2]
    simp only [List.mem_append, List.mem_singleton]
    rintro ((h | h) | h)
    · exact hak_not h
    · exact hak_ne_name h
    · exact zarray_ne_zattrs name h.symm
  have hk3 := keys_dictSet_fresh _ (name ++ "/.zattrs".data)
    (Value.bytes (dictToBytes za)) hfr3
  rw [hk2] at hk3
  have hfr_fold : ∀ i ∈ cartesian (List.zipWith (fun a b => a / b) s.shape s.chunks),
      (name ++ '/' :: render i)
        ∉ (dictSet (dictSet (dictSet s.vfs name (Value.bytes []))
            (name ++ "/.zarray".data)
            (Value.bytes (dictToBytes (lazyMeta s dtype fv comp filt ord))))
            (name ++ "/.zattrs".data) (Value.bytes (dictToBytes za))).map Prod.fst := by
    intro i _ hmem
    rw [hk3] at hmem
    simp only [List.mem_append, List.mem_singleton] at hmem
    rcases hmem with ((hm1 | hm2) | hm3) | hm4
    · exact hpf _ hm1
    · exact append_cons_ne_self name '/' (render i) hm2
    · exact chunk_key_ne_zarray name i hm3
    · exact chunk_key_ne_zattrs name i hm4
  have hfold := foldl_dictSet_append (fun i => name ++ '/' :: render i)
    (fun i => Value.tup [Item.sname name, Item.sindex i, Item.sresolver g0])
    (cartesian (List.zipWith (fun a b => a / b) s.shape s.chunks)) _ hfr_fold
    (chunk_keys_nodup name _)
  rw [hfold] at hv
  refine ⟨?_, by rw [List.length_map, cartesian_length], chunk_keys_nodup name _⟩
  show s'.vfs.map Prod.fst = _
  rw [hv]
  rw [List.map_append, hk3, List.map_map]
  show (storeKeys s ++ [name] ++ [name ++ "/.zarray".data] ++ [name ++ "/.zattrs".data])
      ++ (cartesian (List.zipWith (fun a b => a / b) s.shape s.chunks)).map
           (fun i => name ++ '/' :: render i) = _
  simp [List.append_assoc]

/-- C4 witness: in the sample store (shape 4x4, chunks 2x2, grid 2x2) the lazy
array `v` registers keys `v`, `v/.zarray`, `v/.zattrs`, and 4 distinct chunk
keys. -/
theorem C4_witness :
    storeKeys (okStore (add_lazy_array wStore ("v".data) ("uint8".data) none
        (.leaf .jnull) (.leaf .jnull) ("C".data) none (some 0)))
      = storeKeys wStore ++ ("v".data) :: ("v".data ++ "/.zarray".data)
          :: ("v".data ++ "/.zattrs".data)
          :: ((cartesian (List.zipWith (fun a b => a / b) wStore.shape wStore.chunks)).map
               fun i => "v".data ++ '/' :: render i)
    ∧ ((cartesian (List.zipWith (fun a b => a / b) wStore.shape wStore.chunks)).map
         fun i => "v".data ++ '/' :: render i).length
        = (List.zipWith (fun a b => a / b) wStore.shape wStore.chunks).prod
    ∧ ((cartesian (List.zipWith (fun a b => a / b) wStore.shape wStore.chunks)).map
         fun i => "v".data ++ '/' :: render i).Nodup :=
  C4_lazy_key_count wStore ("v".data) ("uint8".data) none (.leaf .jnull) (.leaf .jnull)
    ("C".data) none 0 _ (by decide) (by decide) (by decide) rfl

/-- C1 (evaluation at the failing input): with dtype uint8 and explicit fill
value 300 (outside the range 0..255), the guard on line 158 — literally
`not fill_value >= dtype_min and not fill_value <= dtype_max` — is never
true, so the fill value is NOT replaced by the dtype maximum: the metadata
records fill value 300 and the materialized chunk bytes wrap to 44 = 300 mod
256 (2020-era numpy semantics of `np.full`; current numpy raises
OverflowError instead — either way there is no silent fallback to 255). With
no fill value at all, the dtype maximum 255 is used, as the claim states. -/
theorem C1_out_of_range_fill_kept :
    resolveFill .uint8 (some (.pint 300)) = some (.pint 300)
    ∧ dictGet (okStore (add_nan_array wStore ("v".data) .uint8 (some (.pint 300))
          (.leaf .jnull) (.leaf .jnull) none ("C".data))).vfs ("v/.zarray".data)
        = some (.bytes (dictToBytes (nanMeta wStore .uint8 (.jint 300)
            (.leaf .jnull) (.leaf .jnull) ("C".data))))
    ∧ dictGet (okStore (add_nan_array wStore ("v".data) .uint8 (some (.pint 300))
          (.leaf .jnull) (.leaf .jnull) none ("C".data))).vfs ("v/0.0".data)
        = some (.bytes (List.replicate 4 44))
    ∧ resolveFill .uint8 none = some (.pint 255) := by
  exact ⟨by decide, rfl, by decide, by decide⟩

end ChunkStore
